import Mathlib

/-!
Verification of the fixed-width price-record assembler (src/src/main.py).

Strings are modelled as `List Char`.  Python dictionaries are modelled as
insertion-ordered association lists with insert-or-assign update, which is
exactly the observable behaviour of a Python dict (updating an existing key
keeps its position; a new key is appended at the end).  The file system seen
by the Dataset Reader is modelled as a function from ticker to the optional
list of lines of its data file; a missing file is an IO error.  Each
`raise`/throw site of the Python code gets its own constructor of `Err`.
-/

set_option maxHeartbeats 1000000

namespace Exercise

abbrev Str := List Char

/-- Python str.isspace characters stripped by str.strip() (ASCII range). -/
def pyIsSpace (c : Char) : Bool :=
  c = ' ' || c = '\t' || c = '\n' || c = '\r' || c = '\x0b' || c = '\x0c'

/-- Strip characters satisfying p from both ends, as Python str.strip does. -/
def stripEnds (p : Char → Bool) (l : Str) : Str :=
  ((l.dropWhile p).reverse.dropWhile p).reverse

/-- Python line.strip() with no argument: strip whitespace from both ends. -/
def pyStrip (l : Str) : Str := stripEnds pyIsSpace l

/-- Python s.strip with a quote argument: strip double quotes from both ends. -/
def stripQuotes (l : Str) : Str := stripEnds (fun c => c = '"') l

/-- Python s.lower() on the ASCII subset used here. -/
def pyLower (l : Str) : Str := l.map Char.toLower

/-- Python s.split on one separator character: s.split of the equals sign.
    The result is always non-empty; splitting the empty string gives one
    empty part, matching Python. -/
def splitOnEq : Str → List Str
  | [] => [[]]
  | c :: rest =>
    let r := splitOnEq rest
    if c = '=' then [] :: r
    else
      match r with
      | [] => [[c]]
      | h :: t => (c :: h) :: t

/-- Python dict assignment d[k] = v on an insertion-ordered association
    list: replace in place if the key exists, append at the end otherwise. -/
def dictInsert {α : Type} (m : List (Str × α)) (k : Str) (v : α) :
    List (Str × α) :=
  match m with
  | [] => [(k, v)]
  | (k0, v0) :: rest =>
    if k0 = k then (k, v) :: rest else (k0, v0) :: dictInsert rest k v

/-- Python dict read access d[k], as an Option. -/
def dictLookup {α : Type} (m : List (Str × α)) (k : Str) : Option α :=
  match m with
  | [] => none
  | (k0, v0) :: rest => if k0 = k then some v0 else dictLookup rest k

/-- Python list(d.keys()). -/
def dictKeys {α : Type} (m : List (Str × α)) : List Str := m.map Prod.fst

/-- Python membership test k in d. -/
def dictMem {α : Type} (m : List (Str × α)) (k : Str) : Bool :=
  (dictLookup m k).isSome

/-- Loop body of get_tics for one line of the TICKERS file. -/
def get_tics_step (m : List (Str × Str)) (line : Str) : List (Str × Str) :=
  let part := splitOnEq (pyStrip line)
  if part.length ≥ 2 then
    dictInsert m (pyLower (stripQuotes (part.getLastD [])))
      (pyLower (stripQuotes (part.headD [])))
  else m

/-- get_tics: fold the per-line step over the lines of the lookup file. -/
def get_tics (lines : List Str) : List (Str × Str) :=
  lines.foldl get_tics_step []

/-- The COLUMNS constant of the source. -/
def COLUMNS : List Str :=
  ["Volume".toList, "Date".toList, "Adj Close".toList,
   "Close".toList, "Open".toList, "High".toList]

/-- The COLWIDTHS constant of the source, as a lookup function.  It is only
    ever applied to members of COLUMNS. -/
def COLWIDTHS (col : Str) : Nat :=
  if col = "Volume".toList then 14
  else if col = "Date".toList then 11
  else if col = "Adj Close".toList then 19
  else if col = "Close".toList then 10
  else if col = "Open".toList then 6
  else if col = "High".toList then 20
  else 0

/-- Python slice line[start : start + width]: clamped, never failing. -/
def pySlice (l : Str) (start width : Nat) : Str := (l.drop start).take width

/-- line_to_dict: walk COLUMNS with a running cursor, slicing the line. -/
def line_to_dict (line : Str) : List (Str × Str) :=
  (COLUMNS.foldl
    (fun (acc : List (Str × Str) × Nat) col =>
      let width := COLWIDTHS col
      (dictInsert acc.1 col (pySlice line acc.2 width), acc.2 + width))
    (([] : List (Str × Str)), 0)).1

/-- One constructor per raise/throw site of the source:
    the two raise sites of verify_tickers, the two of verif_cols, the
    FileNotFoundError of open inside read_dat, and the KeyError of a dict
    read access. -/
inductive Err : Type where
  | emptyTickerList : Err
  | invalidTicker : Str → Err
  | emptyColumnList : Err
  | invalidColumn : Str → Err
  | ioError : Str → Err
  | keyError : Str → Err
deriving DecidableEq, Repr

/-- The four validation constructors (raise sites of the two verifiers). -/
def Err.isValidation : Err → Bool
  | .emptyTickerList => true
  | .invalidTicker _ => true
  | .emptyColumnList => true
  | .invalidColumn _ => true
  | _ => false

/-- Loop of verify_tickers over a non-empty ticker list: the first ticker
    missing from the map raises. -/
def checkTickers (dic : List (Str × Str)) : List Str → Except Err Unit
  | [] => Except.ok ()
  | t :: rest =>
    if dictMem dic t then checkTickers dic rest
    else Except.error (Err.invalidTicker t)

/-- verify_tickers of the source. -/
def verify_tickers (dic : List (Str × Str)) (tickers_lst : Option (List Str)) :
    Except Err Unit :=
  match tickers_lst with
  | none => Except.ok ()
  | some l =>
    if l.length > 0 then checkTickers dic l
    else Except.error Err.emptyTickerList

/-- Loop of verif_cols over a non-empty column list. -/
def checkCols : List Str → Except Err Unit
  | [] => Except.ok ()
  | c :: rest =>
    if c ∈ COLUMNS then checkCols rest
    else Except.error (Err.invalidColumn c)

/-- verif_cols of the source. -/
def verif_cols (col_lst : Option (List Str)) : Except Err Unit :=
  match col_lst with
  | none => Except.ok ()
  | some l =>
    if l.length > 0 then checkCols l
    else Except.error Err.emptyColumnList

/-- read_dat: open the data file of the ticker (a missing file is an IO
    error) and return its lines, each stripped of surrounding whitespace. -/
def read_dat (fs : Str → Option (List Str)) (tic : Str) :
    Except Err (List Str) :=
  match fs tic with
  | none => Except.error (Err.ioError tic)
  | some ls => Except.ok (ls.map pyStrip)

/-- The per-ticker value of the output document. -/
structure TickerDataset : Type where
  exchange : Str
  data : List (List (Str × Str))
deriving DecidableEq, Repr

/-- The dict comprehension of process_ticker_data: keep, in col_lst order,
    the requested keys that are present in the decoded record. -/
def filterRecord (cols : List Str) (raw_line : List (Str × Str)) :
    List (Str × Str) :=
  cols.foldl
    (fun acc key =>
      match dictLookup raw_line key with
      | some v => dictInsert acc key v
      | none => acc)
    []

/-- The per-line body of the processing loop: decode the line and, when a
    column list is set, keep only the requested columns. -/
def projectLine (col_lst : Option (List Str)) (line : Str) :
    List (Str × Str) :=
  match col_lst with
  | some cols => filterRecord cols (line_to_dict line)
  | none => line_to_dict line

/-- process_ticker_data of the source: read the data file, decode every
    line, filter columns when col_lst is set, attach the exchange. -/
def process_ticker_data (fs : Str → Option (List Str))
    (dic : List (Str × Str)) (col_lst : Option (List Str)) (ticker : Str) :
    Except Err TickerDataset :=
  match read_dat fs ticker with
  | Except.error e => Except.error e
  | Except.ok raw_data =>
    match dictLookup dic ticker with
    | none => Except.error (Err.keyError ticker)
    | some exch =>
      Except.ok
        { exchange := pyLower exch
          data := raw_data.map (projectLine col_lst) }

/-- The dict comprehension of create_data_dict over the target tickers:
    the first ticker whose processing raises aborts the whole call. -/
def processAll (fs : Str → Option (List Str)) (dic : List (Str × Str))
    (col_lst : Option (List Str)) :
    List Str → List (Str × TickerDataset) →
    Except Err (List (Str × TickerDataset))
  | [], out => Except.ok out
  | t :: rest, out =>
    match process_ticker_data fs dic col_lst t with
    | Except.error e => Except.error e
    | Except.ok ds => processAll fs dic col_lst rest (dictInsert out t ds)

/-- The two opening lines of create_data_dict: an empty col_lst is falsy
    in Python, so it is collapsed to None before anything else runs. -/
def collapseCols (col_lst : Option (List Str)) : Option (List Str) :=
  match col_lst with
  | none => none
  | some l => if l.length = 0 then none else some l

/-- The conditional call of verif_cols: it only runs when the collapsed
    col_lst is truthy, that is, a non-empty list. -/
def colsGate (col_lst2 : Option (List Str)) : Except Err Unit :=
  match col_lst2 with
  | none => Except.ok ()
  | some l => verif_cols (some l)

/-- target_ticker = tickers_lst or list(tic_exchange_dic.keys()): an
    absent or empty (falsy) tickers_lst defaults to all keys of the map. -/
def targetOf (dic : List (Str × Str)) (tickers_lst : Option (List Str)) :
    List Str :=
  match tickers_lst with
  | none => dictKeys dic
  | some l => if l.length = 0 then dictKeys dic else l

/-- The conditional call of verify_tickers: it only runs when tickers_lst
    is truthy, that is, a non-empty list. -/
def tickersGate (dic : List (Str × Str)) (tickers_lst : Option (List Str)) :
    Except Err Unit :=
  match tickers_lst with
  | none => Except.ok ()
  | some l =>
    if l.length = 0 then Except.ok () else verify_tickers dic (some l)

/-- create_data_dict of the source, assembled from the pieces above in
    source order: collapse col_lst, gate on verif_cols, compute the target
    tickers, gate on verify_tickers, then process every target ticker. -/
def create_data_dict (fs : Str → Option (List Str)) (dic : List (Str × Str))
    (tickers_lst col_lst : Option (List Str)) :
    Except Err (List (Str × TickerDataset)) :=
  let col_lst2 := collapseCols col_lst
  match colsGate col_lst2 with
  | Except.error e => Except.error e
  | Except.ok _ =>
    match tickersGate dic tickers_lst with
    | Except.error e => Except.error e
    | Except.ok _ => processAll fs dic col_lst2 (targetOf dic tickers_lst) []

/-- Strings containing neither an equals sign nor a double quote. -/
def goodStr (s : Str) : Prop := ∀ c ∈ s, c ≠ '=' ∧ c ≠ '"'

instance (s : Str) : Decidable (goodStr s) :=
  inferInstanceAs (Decidable (∀ c ∈ s, c ≠ '=' ∧ c ≠ '"'))

/-- A well-formed lookup line: the exchange and the ticker, each wrapped
    in double quotes, joined by an equals sign. -/
def mkLine (e t : Str) : Str :=
  '"' :: (e ++ ('"' :: '=' :: '"' :: (t ++ ['"'])))

/-- A well-formed lookup line: some exchange and ticker, both free of the
    equals sign and the double quote. -/
def WFLine (l : Str) : Prop :=
  ∃ e t, goodStr e ∧ goodStr t ∧ l = mkLine e t

/-- Cumulative decode offset of each schema column: the sum of the widths
    of the columns before it in COLUMNS order. -/
def colOffset (col : Str) : Nat :=
  if col = "Volume".toList then 0
  else if col = "Date".toList then 14
  else if col = "Adj Close".toList then 25
  else if col = "Close".toList then 44
  else if col = "Open".toList then 54
  else if col = "High".toList then 60
  else 80

/-- The concatenation, in COLUMNS order, of the values of the record
    decoded from a line. -/
def recordConcat (line : Str) : Str :=
  (COLUMNS.map (fun c => (dictLookup (line_to_dict line) c).getD [])).foldr
    (fun a b => a ++ b) []

/-! Concrete inputs used by the evaluation theorems. -/

def aaplTic : Str := "aapl".toList

def nasdaqExch : Str := "nasdaq".toList

def aaplDic : List (Str × Str) := [(aaplTic, nasdaqExch)]

/-- The one-line data file of the worked example of the spec: the
    concatenation of its three quoted literals. -/
def exampleLine : Str :=
  ("        100" ++ "2020-01-01 " ++ "   150.00000000000").toList

def exampleFs : Str → Option (List Str) :=
  fun t => if t = aaplTic then some [exampleLine] else none

/-- The record the worked example actually produces. -/
def exampleRecActual : List (Str × Str) :=
  [("Date".toList, "   150.0000".toList), ("Close".toList, ([] : Str))]

/-- The record the worked example is claimed to produce. -/
def exampleRecClaimed : List (Str × Str) :=
  [("Date".toList, "2020-01-01 ".toList), ("Close".toList, ([] : Str))]

def helloFs : Str → Option (List Str) :=
  fun t => if t = aaplTic then some ["hello".toList] else none

/-- C1.  On tickers_lst = [] the code does not raise: the empty list is
    falsy, so the default (all keys of the map) is substituted and
    verify_tickers is never called, although verify_tickers itself would
    raise EmptyTickerList on an explicit empty list.  create_data_dict
    returns a full output document instead of failing. -/
theorem create_data_dict_empty_tickers_returns_all :
    verify_tickers aaplDic (some []) = Except.error Err.emptyTickerList ∧
    create_data_dict (fun t => if t = aaplTic then some [] else none)
        aaplDic (some []) none =
      Except.ok [(aaplTic, { exchange := nasdaqExch, data := [] })] :=
  ⟨rfl, rfl⟩

/-- C3.  On col_lst = [] the code does not raise: the empty list is
    collapsed to None before validation, so verif_cols is never called,
    although verif_cols itself would raise EmptyColumnList on an explicit
    empty list.  create_data_dict returns output with all six columns
    retained instead of failing. -/
theorem create_data_dict_empty_cols_keeps_all :
    verif_cols (some []) = Except.error Err.emptyColumnList ∧
    create_data_dict helloFs aaplDic none (some []) =
      Except.ok [(aaplTic,
        { exchange := nasdaqExch
          data := [[("Volume".toList, "hello".toList),
                    ("Date".toList, ([] : Str)),
                    ("Adj Close".toList, ([] : Str)),
                    ("Close".toList, ([] : Str)),
                    ("Open".toList, ([] : Str)),
                    ("High".toList, ([] : Str))]] })] :=
  ⟨rfl, rfl⟩

/-- C2 counterexample.  On the exact input of the worked example the code
    yields Date = three spaces followed by 150.0000 and Close empty, not
    Date = 2020-01-01 followed by a space: read_dat strips the leading
    spaces of the line before decoding, shifting the fixed-width content.
    So the output claimed by the spec is not the output of the code. -/
theorem create_data_dict_example_ne_spec :
    create_data_dict exampleFs aaplDic (some [aaplTic])
        (some ["Date".toList, "Close".toList]) =
      Except.ok [(aaplTic,
        { exchange := nasdaqExch, data := [exampleRecActual] })] ∧
    ([(aaplTic,
        { exchange := nasdaqExch, data := [exampleRecActual] })] :
        List (Str × TickerDataset)) ≠
      [(aaplTic,
        { exchange := nasdaqExch, data := [exampleRecClaimed] })] :=
  ⟨rfl, by decide⟩

/-- C2 amended.  On the input of the worked example, create_data_dict
    returns the aapl entry with exchange nasdaq and the single record
    keeping Date = "   150.0000" and Close = "": the Dataset Reader strips
    surrounding whitespace from the line before the fixed-width decode. -/
theorem create_data_dict_example_actual :
    create_data_dict exampleFs aaplDic (some [aaplTic])
        (some ["Date".toList, "Close".toList]) =
      Except.ok [(aaplTic,
        { exchange := nasdaqExch, data := [exampleRecActual] })] :=
  rfl

/-! Machinery for well-formed lookup-file lines. -/

lemma dropWhile_append_of_all {p : Char → Bool} {w : Str} (l : Str)
    (hw : ∀ c ∈ w, p c = true) :
    List.dropWhile p (w ++ l) = List.dropWhile p l := by
  induction w with
  | nil => rfl
  | cons c w ih =>
    have hc : p c = true := hw c (List.mem_cons_self c w)
    have hrest : ∀ c2 ∈ w, p c2 = true :=
      fun c2 h2 => hw c2 (List.mem_cons_of_mem c h2)
    simp [List.dropWhile_cons, hc, ih hrest]

lemma dropWhile_of_forall_not {p : Char → Bool} {l : Str}
    (h : ∀ c ∈ l, p c = false) : List.dropWhile p l = l := by
  cases l with
  | nil => rfl
  | cons c rest =>
    simp [List.dropWhile_cons, h c (List.mem_cons_self c rest)]

/-- Stripping both ends of a string that is whitespace, then a non-space
    head character, a middle, a non-space last character, then whitespace,
    keeps exactly the sandwiched part. -/
lemma stripEnds_sandwich {p : Char → Bool} {w1 w2 mid : Str} {c1 c2 : Char}
    (hw1 : ∀ c ∈ w1, p c = true) (hw2 : ∀ c ∈ w2, p c = true)
    (hc1 : p c1 = false) (hc2 : p c2 = false) :
    stripEnds p (w1 ++ (c1 :: (mid ++ [c2])) ++ w2) = c1 :: (mid ++ [c2]) := by
  unfold stripEnds
  have hshape : w1 ++ (c1 :: (mid ++ [c2])) ++ w2 =
      w1 ++ (c1 :: (mid ++ [c2] ++ w2)) := by
    simp
  rw [hshape, dropWhile_append_of_all _ hw1]
  rw [show List.dropWhile p (c1 :: (mid ++ [c2] ++ w2)) =
      c1 :: (mid ++ [c2] ++ w2) by simp [List.dropWhile_cons, hc1]]
  have hrev : (c1 :: (mid ++ [c2] ++ w2)).reverse =
      w2.reverse ++ (c2 :: (mid.reverse ++ [c1])) := by
    simp
  rw [hrev, dropWhile_append_of_all _ (fun c h => hw2 c (by simpa using h))]
  rw [show List.dropWhile p (c2 :: (mid.reverse ++ [c1])) =
      c2 :: (mid.reverse ++ [c1]) by simp [List.dropWhile_cons, hc2]]
  simp

/-- Stripping quotes from a quote-wrapped string with no inner quote
    recovers the inner string. -/
lemma stripQuotes_wrap {s : Str} (h : ∀ c ∈ s, c ≠ '"') :
    stripQuotes ('"' :: (s ++ ['"'])) = s := by
  unfold stripQuotes stripEnds
  cases s with
  | nil => rfl
  | cons c rest =>
    have hc : (fun c => decide (c = '"')) c = false := by
      simpa using h c (List.mem_cons_self c rest)
    rw [show List.dropWhile (fun c => decide (c = '"'))
        ('"' :: (c :: rest ++ ['"'])) =
        List.dropWhile (fun c => decide (c = '"')) (c :: rest ++ ['"']) by
      simp [List.dropWhile_cons]]
    rw [show (c :: rest ++ ['"'] : Str) = c :: (rest ++ ['"']) by simp]
    rw [show List.dropWhile (fun c => decide (c = '"')) (c :: (rest ++ ['"'])) =
        c :: (rest ++ ['"']) by simp [List.dropWhile_cons, hc]]
    have hrev : (c :: (rest ++ ['"'])).reverse =
        '"' :: ((c :: rest).reverse) := by simp
    rw [hrev]
    rw [show List.dropWhile (fun c => decide (c = '"'))
        ('"' :: ((c :: rest).reverse)) =
        List.dropWhile (fun c => decide (c = '"')) ((c :: rest).reverse) by
      simp [List.dropWhile_cons]]
    rw [dropWhile_of_forall_not (fun c2 h2 => by
      simpa using h c2 (List.mem_reverse.mp h2))]
    simp

lemma splitOnEq_ne_nil (l : Str) : splitOnEq l ≠ [] := by
  cases l with
  | nil => simp [splitOnEq]
  | cons c rest =>
    simp only [splitOnEq]
    split
    · simp
    · split <;> simp

lemma splitOnEq_decomp (l : Str) :
    splitOnEq l = (splitOnEq l).headD [] :: (splitOnEq l).tail := by
  cases h : splitOnEq l with
  | nil => exact absurd h (splitOnEq_ne_nil l)
  | cons a b => simp

lemma splitOnEq_cons_ne {c : Char} (hc : c ≠ '=') (l : Str) :
    splitOnEq (c :: l) =
      (c :: (splitOnEq l).headD []) :: (splitOnEq l).tail := by
  simp only [splitOnEq, if_neg hc]
  cases h : splitOnEq l with
  | nil => exact absurd h (splitOnEq_ne_nil l)
  | cons a b => simp

lemma splitOnEq_append_noeq {a : Str} (ha : ∀ c ∈ a, c ≠ '=') (l : Str) :
    splitOnEq (a ++ l) =
      (a ++ (splitOnEq l).headD []) :: (splitOnEq l).tail := by
  induction a with
  | nil => simpa using splitOnEq_decomp l
  | cons c a ih =>
    have hc : c ≠ '=' := ha c (List.mem_cons_self c a)
    rw [List.cons_append,
      splitOnEq_cons_ne hc,
      ih (fun c2 h2 => ha c2 (List.mem_cons_of_mem c h2))]
    simp

/-- Splitting a well-formed line on the equals sign yields exactly the two
    quote-wrapped parts. -/
lemma splitOnEq_mkLine {e t : Str}
    (he : ∀ c ∈ e, c ≠ '=') (ht : ∀ c ∈ t, c ≠ '=') :
    splitOnEq (mkLine e t) =
      ['"' :: (e ++ ['"']), '"' :: (t ++ ['"'])] := by
  have hshape : mkLine e t =
      ('"' :: (e ++ ['"'])) ++ ('=' :: ('"' :: (t ++ ['"']))) := by
    simp [mkLine]
  have hA : ∀ c ∈ ('"' :: (e ++ ['"']) : Str), c ≠ '=' := by
    intro c hmem
    rcases List.mem_cons.mp hmem with h | h
    · subst h; decide
    · rcases List.mem_append.mp h with h | h
      · exact he c h
      · simp at h; subst h; decide
  have hB : ∀ c ∈ ('"' :: (t ++ ['"']) : Str), c ≠ '=' := by
    intro c hmem
    rcases List.mem_cons.mp hmem with h | h
    · subst h; decide
    · rcases List.mem_append.mp h with h | h
      · exact ht c h
      · simp at h; subst h; decide
  have hBsplit : splitOnEq ('"' :: (t ++ ['"'])) = ['"' :: (t ++ ['"'])] := by
    have := splitOnEq_append_noeq hB ([] : Str)
    simpa [splitOnEq] using this
  rw [hshape, splitOnEq_append_noeq hA]
  rw [show splitOnEq ('=' :: ('"' :: (t ++ ['"']))) =
      [] :: splitOnEq ('"' :: (t ++ ['"'])) by simp [splitOnEq]]
  rw [hBsplit]
  simp

/-- The per-line step of get_tics on a well-formed line, possibly padded
    with whitespace at both ends of the whole line: the ticker and the
    exchange are unwrapped, lower-cased and inserted. -/
lemma get_tics_step_wf {m : List (Str × Str)} {w1 w2 e t : Str}
    (hw1 : ∀ c ∈ w1, pyIsSpace c = true) (hw2 : ∀ c ∈ w2, pyIsSpace c = true)
    (he : goodStr e) (ht : goodStr t) :
    get_tics_step m (w1 ++ mkLine e t ++ w2) =
      dictInsert m (pyLower t) (pyLower e) := by
  have hmid : mkLine e t =
      '"' :: ((e ++ ('"' :: '=' :: '"' :: t)) ++ ['"']) := by
    simp [mkLine]
  have hstrip : pyStrip (w1 ++ mkLine e t ++ w2) = mkLine e t := by
    rw [hmid]
    exact stripEnds_sandwich hw1 hw2 (by decide) (by decide)
  unfold get_tics_step
  rw [hstrip,
    splitOnEq_mkLine (fun c h => (he c h).1) (fun c h => (ht c h).1)]
  show (if (2 : Nat) ≥ 2 then
      dictInsert m (pyLower (stripQuotes ('"' :: (t ++ ['"']))))
        (pyLower (stripQuotes ('"' :: (e ++ ['"'])))) else m) =
    dictInsert m (pyLower t) (pyLower e)
  rw [if_pos (by decide : (2 : Nat) ≥ 2)]
  rw [stripQuotes_wrap (fun c h => (ht c h).2),
    stripQuotes_wrap (fun c h => (he c h).2)]

lemma get_tics_step_nil_line (m : List (Str × Str)) :
    get_tics_step m [] = m := rfl

/-- The per-line step of get_tics on a bare well-formed line. -/
lemma get_tics_step_mkLine (m : List (Str × Str)) {e t : Str}
    (he : goodStr e) (ht : goodStr t) :
    get_tics_step m (mkLine e t) = dictInsert m (pyLower t) (pyLower e) := by
  have hsh : get_tics_step m (mkLine e t) =
      get_tics_step m ([] ++ mkLine e t ++ []) := by simp
  rw [hsh]
  exact get_tics_step_wf (fun c h => nomatch h) (fun c h => nomatch h) he ht

lemma dictLookup_insert_self {α : Type} (m : List (Str × α)) (k : Str)
    (v : α) : dictLookup (dictInsert m k v) k = some v := by
  induction m with
  | nil => simp [dictInsert, dictLookup]
  | cons p rest ih =>
    by_cases h : p.1 = k
    · simp [dictInsert, dictLookup, h]
    · simp [dictInsert, dictLookup, h, ih]

lemma dictLookup_insert_ne {α : Type} (m : List (Str × α)) {k k2 : Str}
    (v : α) (h : k2 ≠ k) :
    dictLookup (dictInsert m k2 v) k = dictLookup m k := by
  induction m with
  | nil => simp [dictInsert, dictLookup, h]
  | cons p rest ih =>
    by_cases hp : p.1 = k2
    · have hpk : p.1 ≠ k := by rw [hp]; exact h
      simp [dictInsert, dictLookup, hp, h, hpk]
    · simp [dictInsert, dictLookup, hp, ih]

/-- Folding the get_tics step over lines that are empty or well-formed
    with a different ticker preserves an existing binding. -/
lemma lookup_foldl_get_tics_preserved :
    ∀ (post : List Str) (m : List (Str × Str)) (key : Str) (v : Str),
      dictLookup m key = some v →
      (∀ l ∈ post, l = [] ∨ ∃ e2 t2, goodStr e2 ∧ goodStr t2 ∧
        l = mkLine e2 t2 ∧ pyLower t2 ≠ key) →
      dictLookup (post.foldl get_tics_step m) key = some v := by
  intro post
  induction post with
  | nil => intro m key v hm _; exact hm
  | cons l rest ih =>
    intro m key v hm hpost
    rcases hpost l (List.mem_cons_self l rest) with hnil | ⟨e2, t2, he2, ht2, hl, hne⟩
    · subst hnil
      rw [List.foldl_cons, get_tics_step_nil_line]
      exact ih m key v hm
        (fun l2 h2 => hpost l2 (List.mem_cons_of_mem _ h2))
    · subst hl
      rw [List.foldl_cons]
      rw [get_tics_step_mkLine m he2 ht2]
      exact ih _ key v (by rw [dictLookup_insert_ne _ _ hne]; exact hm)
        (fun l2 h2 => hpost l2 (List.mem_cons_of_mem _ h2))

/-- C4 counterexample.  A line with whitespace between the quoted parts
    and the equals sign does not get its key and value cleaned: the line
    with NYSE, a space, the equals sign, a space, and IBM yields the key
    consisting of a space, a quote and ibm, not the key ibm, because the
    strip of quote characters stops at the whitespace. -/
theorem get_tics_inner_whitespace_not_cleaned :
    get_tics [("\"NYSE\" = \"IBM\"").toList] =
      [((" \"ibm").toList, ("nyse\" ").toList)] ∧
    (" \"ibm").toList ≠ "ibm".toList :=
  ⟨rfl, by decide⟩

/-- C4 amended.  For every lookup line that is a well-formed quoted pair
    with whitespace allowed only at the two ends of the whole line (none
    between the quoted parts and the equals sign), the get_tics step maps
    the ticker, unwrapped and lower-cased, to the exchange, unwrapped and
    lower-cased. -/
theorem get_tics_outer_whitespace_line
    (m : List (Str × Str)) (w1 w2 e t : Str)
    (hw1 : ∀ c ∈ w1, pyIsSpace c = true) (hw2 : ∀ c ∈ w2, pyIsSpace c = true)
    (he : goodStr e) (ht : goodStr t) :
    get_tics_step m (w1 ++ mkLine e t ++ w2) =
      dictInsert m (pyLower t) (pyLower e) :=
  get_tics_step_wf hw1 hw2 he ht

/-- Witness for C4 amended: a single space before and after the quoted
    pair of NYSE and IBM produces the binding of ibm to nyse. -/
theorem get_tics_outer_whitespace_line_witness :
    (∀ c ∈ ([' '] : Str), pyIsSpace c = true) ∧
    goodStr "NYSE".toList ∧ goodStr "IBM".toList ∧
    get_tics_step [] ([' '] ++ mkLine "NYSE".toList "IBM".toList ++ [' ']) =
      dictInsert [] (pyLower "IBM".toList) (pyLower "NYSE".toList) :=
  ⟨by decide, by decide, by decide,
    get_tics_outer_whitespace_line [] [' '] [' '] "NYSE".toList "IBM".toList
      (by decide) (by decide) (by decide) (by decide)⟩

/-- C7.  For a lookup file whose lines are all empty or well-formed, the
    loaded map sends the lower-cased ticker of a line to the lower-cased
    exchange of that line, and when several lines define the same ticker
    the last such line wins: here the designated line is followed only by
    lines that do not define the same ticker. -/
theorem get_tics_wellformed_last_wins
    (pre post : List Str) (e t : Str)
    (_hpre : ∀ l ∈ pre, l = [] ∨ WFLine l)
    (he : goodStr e) (ht : goodStr t)
    (hpost : ∀ l ∈ post, l = [] ∨ ∃ e2 t2, goodStr e2 ∧ goodStr t2 ∧
      l = mkLine e2 t2 ∧ pyLower t2 ≠ pyLower t) :
    dictLookup (get_tics (pre ++ mkLine e t :: post)) (pyLower t) =
      some (pyLower e) := by
  unfold get_tics
  rw [List.foldl_append, List.foldl_cons]
  rw [get_tics_step_mkLine (pre.foldl get_tics_step []) he ht]
  exact lookup_foldl_get_tics_preserved post _ _ _
    (dictLookup_insert_self _ _ _) hpost

/-- Witness for C7: two well-formed lines defining the ticker IBM, first
    on amex and then on NYSE; the loaded map keeps nyse, the exchange of
    the last line. -/
theorem get_tics_wellformed_last_wins_witness :
    goodStr "NYSE".toList ∧ goodStr "IBM".toList ∧
    dictLookup
      (get_tics ([mkLine "amex".toList "IBM".toList] ++
        mkLine "NYSE".toList "IBM".toList :: []))
      (pyLower "IBM".toList) = some (pyLower "NYSE".toList) :=
  ⟨by decide, by decide,
    get_tics_wellformed_last_wins [mkLine "amex".toList "IBM".toList] []
      "NYSE".toList "IBM".toList
      (by
        intro l hl
        have h := List.mem_singleton.mp hl
        exact Or.inr ⟨"amex".toList, "IBM".toList, by decide, by decide, h⟩)
      (by decide) (by decide)
      (by intro l hl; cases hl)⟩

/-! Validation lemmas: each verifier loop either accepts all its inputs
    or stops at the first offending one with its own error. -/

lemma checkCols_cases (l : List Str) :
    checkCols l = Except.ok () ∨
      ∃ c, checkCols l = Except.error (Err.invalidColumn c) := by
  induction l with
  | nil => exact Or.inl rfl
  | cons c rest ih =>
    by_cases hc : c ∈ COLUMNS
    · simpa only [checkCols, if_pos hc] using ih
    · exact Or.inr ⟨c, by simp only [checkCols, if_neg hc]⟩

lemma checkCols_valid_of_ok {l : List Str}
    (h : checkCols l = Except.ok ()) : ∀ c ∈ l, c ∈ COLUMNS := by
  induction l with
  | nil => intro c hc; cases hc
  | cons c rest ih =>
    simp only [checkCols] at h
    by_cases hc : c ∈ COLUMNS
    · rw [if_pos hc] at h
      intro c2 hc2
      rcases List.mem_cons.mp hc2 with h2 | h2
      · exact h2 ▸ hc
      · exact ih h c2 h2
    · rw [if_neg hc] at h; cases h

lemma checkCols_ok_of_valid {l : List Str}
    (h : ∀ c ∈ l, c ∈ COLUMNS) : checkCols l = Except.ok () := by
  induction l with
  | nil => rfl
  | cons c rest ih =>
    simp only [checkCols]
    rw [if_pos (h c (List.mem_cons_self c rest))]
    exact ih (fun c2 h2 => h c2 (List.mem_cons_of_mem c h2))

lemma checkTickers_cases (dic : List (Str × Str)) (l : List Str) :
    checkTickers dic l = Except.ok () ∨
      ∃ t, checkTickers dic l = Except.error (Err.invalidTicker t) := by
  induction l with
  | nil => exact Or.inl rfl
  | cons t rest ih =>
    by_cases ht : dictMem dic t = true
    · simpa only [checkTickers, if_pos ht] using ih
    · exact Or.inr ⟨t, by simp only [checkTickers, if_neg ht]⟩

lemma checkTickers_valid_of_ok {dic : List (Str × Str)} {l : List Str}
    (h : checkTickers dic l = Except.ok ()) : ∀ t ∈ l, dictMem dic t = true := by
  induction l with
  | nil => intro t ht; cases ht
  | cons t rest ih =>
    simp only [checkTickers] at h
    by_cases ht : dictMem dic t = true
    · rw [if_pos ht] at h
      intro t2 ht2
      rcases List.mem_cons.mp ht2 with h2 | h2
      · exact h2 ▸ ht
      · exact ih h t2 h2
    · rw [if_neg ht] at h; cases h

lemma checkTickers_ok_of_valid {dic : List (Str × Str)} {l : List Str}
    (h : ∀ t ∈ l, dictMem dic t = true) : checkTickers dic l = Except.ok () := by
  induction l with
  | nil => rfl
  | cons t rest ih =>
    simp only [checkTickers]
    rw [if_pos (h t (List.mem_cons_self t rest))]
    exact ih (fun t2 h2 => h t2 (List.mem_cons_of_mem t h2))

/-- When every provided column list passes verif_cols, the column gate of
    create_data_dict succeeds. -/
lemma colsGate_collapse_ok {cl : Option (List Str)}
    (hcl : ∀ m, cl = some m → m ≠ [] → checkCols m = Except.ok ()) :
    colsGate (collapseCols cl) = Except.ok () := by
  cases cl with
  | none => rfl
  | some m =>
    simp only [collapseCols]
    by_cases hm : m.length = 0
    · rw [if_pos hm]; rfl
    · rw [if_neg hm]
      have hm2 : m ≠ [] := fun h => hm (by rw [h]; rfl)
      simp only [colsGate, verif_cols]
      rw [if_pos (List.length_pos.mpr hm2), hcl m rfl hm2]

/-- create_data_dict stops with the column error when the provided
    non-empty column list fails verif_cols. -/
lemma create_data_dict_cols_err (fs : Str → Option (List Str))
    (dic : List (Str × Str)) (tickers_lst : Option (List Str))
    {m : List Str} {e : Err} (hm : m ≠ [])
    (herr : checkCols m = Except.error e) :
    create_data_dict fs dic tickers_lst (some m) = Except.error e := by
  have hcol : collapseCols (some m) = some m := by
    simp only [collapseCols]
    rw [if_neg (fun h => hm (List.length_eq_zero.mp h))]
  have hgate : colsGate (some m) = Except.error e := by
    simp only [colsGate, verif_cols]
    rw [if_pos (List.length_pos.mpr hm), herr]
  simp only [create_data_dict, hcol, hgate]

/-- create_data_dict stops with the ticker error when the column gate
    passes and the provided non-empty ticker list fails verify_tickers. -/
lemma create_data_dict_tickers_err (fs : Str → Option (List Str))
    (dic : List (Str × Str)) {l : List Str} (cl : Option (List Str)) {e : Err}
    (hcl : ∀ m, cl = some m → m ≠ [] → checkCols m = Except.ok ())
    (hl : l ≠ []) (herr : checkTickers dic l = Except.error e) :
    create_data_dict fs dic (some l) cl = Except.error e := by
  have htgate : tickersGate dic (some l) = Except.error e := by
    simp only [tickersGate]
    rw [if_neg (fun h => hl (List.length_eq_zero.mp h))]
    simp only [verify_tickers]
    rw [if_pos (List.length_pos.mpr hl), herr]
  simp only [create_data_dict, colsGate_collapse_ok hcl, htgate]

/-- When the gates pass, create_data_dict is the processing loop over the
    provided non-empty ticker list with the collapsed column list. -/
lemma create_data_dict_gates_ok {fs : Str → Option (List Str)}
    {dic : List (Str × Str)} {l : List Str} {cl : Option (List Str)}
    (hcl : ∀ m, cl = some m → m ≠ [] → checkCols m = Except.ok ())
    (hl : l ≠ []) (ht : checkTickers dic l = Except.ok ()) :
    create_data_dict fs dic (some l) cl =
      processAll fs dic (collapseCols cl) l [] := by
  have htg : tickersGate dic (some l) = Except.ok () := by
    simp only [tickersGate]
    rw [if_neg (fun h => hl (List.length_eq_zero.mp h))]
    simp only [verify_tickers]
    rw [if_pos (List.length_pos.mpr hl), ht]
  have htarget : targetOf dic (some l) = l := by
    simp only [targetOf]
    rw [if_neg (fun h => hl (List.length_eq_zero.mp h))]
  simp only [create_data_dict, colsGate_collapse_ok hcl, htg, htarget]

/-- C5.  A provided non-empty ticker list containing a symbol absent from
    the map, or a provided non-empty column list containing a name outside
    the schema, makes create_data_dict fail with a validation error that
    does not depend on the file system at all: validation happens before
    any data file is read, so no partial results are produced. -/
theorem create_data_dict_validation_fails_fast
    (dic : List (Str × Str)) (tickers_lst col_lst : Option (List Str))
    (hbad :
      (∃ l, tickers_lst = some l ∧ l ≠ [] ∧ ∃ x ∈ l, dictMem dic x = false) ∨
      (∃ m, col_lst = some m ∧ m ≠ [] ∧ ∃ c ∈ m, c ∉ COLUMNS)) :
    ∃ e, Err.isValidation e = true ∧
      ∀ fs, create_data_dict fs dic tickers_lst col_lst = Except.error e := by
  rcases hbad with ⟨l, htl, hl, x, hxl, hxf⟩ | ⟨m, hclm, hm, c, hcm, hcf⟩
  · subst htl
    cases hcol : col_lst with
    | none =>
      rcases checkTickers_cases dic l with hok | ⟨t2, herr⟩
      · exact absurd (checkTickers_valid_of_ok hok x hxl) (by simp [hxf])
      · exact ⟨Err.invalidTicker t2, rfl,
          fun fs => create_data_dict_tickers_err fs dic none
            (fun m2 h => nomatch h) hl herr⟩
    | some m =>
      by_cases hm0 : m = []
      · subst hm0
        rcases checkTickers_cases dic l with hok | ⟨t2, herr⟩
        · exact absurd (checkTickers_valid_of_ok hok x hxl) (by simp [hxf])
        · exact ⟨Err.invalidTicker t2, rfl,
            fun fs => create_data_dict_tickers_err fs dic (some [])
              (fun m2 h hne => by injection h with h2; exact absurd h2.symm hne)
              hl herr⟩
      · rcases checkCols_cases m with hokc | ⟨c2, herrc⟩
        · rcases checkTickers_cases dic l with hok | ⟨t2, herr⟩
          · exact absurd (checkTickers_valid_of_ok hok x hxl) (by simp [hxf])
          · exact ⟨Err.invalidTicker t2, rfl,
              fun fs => create_data_dict_tickers_err fs dic (some m)
                (fun m2 h _ => by injection h with h2; exact h2 ▸ hokc) hl herr⟩
        · exact ⟨Err.invalidColumn c2, rfl,
            fun fs => create_data_dict_cols_err fs dic (some l) hm0 herrc⟩
  · subst hclm
    rcases checkCols_cases m with hokc | ⟨c2, herrc⟩
    · exact absurd (checkCols_valid_of_ok hokc c hcm) hcf
    · exact ⟨Err.invalidColumn c2, rfl,
        fun fs => create_data_dict_cols_err fs dic tickers_lst hm herrc⟩

/-- Witness for C5: the ticker nope is absent from the aapl map, so the
    call fails with a validation error independently of the file system. -/
theorem create_data_dict_validation_fails_fast_witness :
    ((∃ l, (some ["nope".toList] : Option (List Str)) = some l ∧ l ≠ [] ∧
        ∃ x ∈ l, dictMem aaplDic x = false) ∨
      (∃ m, (none : Option (List Str)) = some m ∧ m ≠ [] ∧
        ∃ c ∈ m, c ∉ COLUMNS)) ∧
    ∃ e, Err.isValidation e = true ∧
      ∀ fs, create_data_dict fs aaplDic (some ["nope".toList]) none =
        Except.error e :=
  ⟨Or.inl ⟨["nope".toList], rfl, by decide, "nope".toList, by decide, by decide⟩,
    create_data_dict_validation_fails_fast aaplDic (some ["nope".toList]) none
      (Or.inl ⟨["nope".toList], rfl, by decide, "nope".toList, by decide,
        by decide⟩)⟩

/-! Fixed-width decoding lemmas. -/

/-- line_to_dict written out: one slice per schema column, at the
    cumulative offsets of the widths in COLUMNS order. -/
lemma line_to_dict_eq (line : Str) :
    line_to_dict line =
      [("Volume".toList, pySlice line 0 14),
       ("Date".toList, pySlice line 14 11),
       ("Adj Close".toList, pySlice line 25 19),
       ("Close".toList, pySlice line 44 10),
       ("Open".toList, pySlice line 54 6),
       ("High".toList, pySlice line 60 20)] := rfl

lemma keys_line_to_dict (line : Str) :
    dictKeys (line_to_dict line) = COLUMNS := rfl

lemma pySlice_of_le {line : Str} {off : Nat} (w : Nat)
    (h : line.length ≤ off) : pySlice line off w = [] := by
  unfold pySlice
  rw [List.drop_eq_nil_of_le h]
  exact List.take_nil

lemma pySlice_tail_of_le {line : Str} {off w : Nat}
    (h : line.length ≤ off + w) : pySlice line off w = line.drop off := by
  unfold pySlice
  apply List.take_of_length_le
  rw [List.length_drop]
  omega

/-- C6.  Decoding a line never fails: the record has exactly one entry
    per schema column; the value is the clamped slice at the cumulative
    offset; a column whose offset lies at or beyond the end of the line
    gets the empty string, and a column only partially covered by the
    line gets all the remaining characters. -/
theorem line_to_dict_total_schema (line col : Str) (hcol : col ∈ COLUMNS) :
    dictKeys (line_to_dict line) = COLUMNS ∧
    ∃ v, dictLookup (line_to_dict line) col = some v ∧
      v = pySlice line (colOffset col) (COLWIDTHS col) ∧
      (line.length ≤ colOffset col → v = []) ∧
      (line.length ≤ colOffset col + COLWIDTHS col →
        v = line.drop (colOffset col)) := by
  refine ⟨keys_line_to_dict line, ?_⟩
  simp only [COLUMNS, List.mem_cons, List.not_mem_nil, or_false] at hcol
  rcases hcol with h | h | h | h | h | h <;> subst h <;>
    exact ⟨_, rfl, rfl, fun h2 => pySlice_of_le _ h2,
      fun h2 => pySlice_tail_of_le h2⟩

/-- Witness for C6 at the three-character line abc and the Date column:
    the offset 14 lies beyond the line, so the value is empty. -/
theorem line_to_dict_total_schema_witness :
    ("Date".toList ∈ COLUMNS) ∧
    (dictKeys (line_to_dict "abc".toList) = COLUMNS ∧
      ∃ v, dictLookup (line_to_dict "abc".toList) "Date".toList = some v ∧
        v = pySlice "abc".toList (colOffset "Date".toList)
          (COLWIDTHS "Date".toList) ∧
        ("abc".toList.length ≤ colOffset "Date".toList → v = []) ∧
        ("abc".toList.length ≤ colOffset "Date".toList +
            COLWIDTHS "Date".toList →
          v = "abc".toList.drop (colOffset "Date".toList))) :=
  ⟨by decide, line_to_dict_total_schema "abc".toList "Date".toList (by decide)⟩

/-- recordConcat written out as the six slices in schema order. -/
lemma recordConcat_eq (line : Str) :
    recordConcat line =
      pySlice line 0 14 ++ (pySlice line 14 11 ++ (pySlice line 25 19 ++
        (pySlice line 44 10 ++ (pySlice line 54 6 ++
          (pySlice line 60 20 ++ []))))) := rfl

/-- C10.  Concatenating the values of the decoded record in COLUMNS order
    yields exactly the first eighty characters of the line; for a line of
    length at most eighty it yields the line itself, so decoding loses no
    characters. -/
theorem line_to_dict_concat_take80 (line : Str) :
    recordConcat line = line.take 80 ∧
    (line.length ≤ 80 → recordConcat line = line) := by
  have e5 : (line.drop 54).take 6 ++ (line.drop 60).take 20 =
      (line.drop 54).take 26 := by
    have h := (List.take_add (line.drop 54) 6 20).symm
    simpa [List.drop_drop] using h
  have e4 : (line.drop 44).take 10 ++ (line.drop 54).take 26 =
      (line.drop 44).take 36 := by
    have h := (List.take_add (line.drop 44) 10 26).symm
    simpa [List.drop_drop] using h
  have e3 : (line.drop 25).take 19 ++ (line.drop 44).take 36 =
      (line.drop 25).take 55 := by
    have h := (List.take_add (line.drop 25) 19 36).symm
    simpa [List.drop_drop] using h
  have e2 : (line.drop 14).take 11 ++ (line.drop 25).take 55 =
      (line.drop 14).take 66 := by
    have h := (List.take_add (line.drop 14) 11 55).symm
    simpa [List.drop_drop] using h
  have e1 : line.take 14 ++ (line.drop 14).take 66 = line.take 80 := by
    have h := (List.take_add line 14 66).symm
    simpa using h
  have hmain : recordConcat line = line.take 80 := by
    rw [recordConcat_eq]
    unfold pySlice
    rw [List.drop_zero]
    simp only [List.append_nil]
    rw [e5, e4, e3, e2, e1]
  exact ⟨hmain, fun hle => by rw [hmain]; exact List.take_of_length_le hle⟩

/-- Witness for C10 at the two-character line ab, whose length is at most
    eighty: the concatenation of the decoded values is the line itself. -/
theorem line_to_dict_concat_take80_witness :
    recordConcat "ab".toList = ("ab".toList).take 80 ∧
    recordConcat "ab".toList = "ab".toList :=
  ⟨(line_to_dict_concat_take80 "ab".toList).1,
    (line_to_dict_concat_take80 "ab".toList).2 (by decide)⟩

/-! Dictionary lemmas for the processing loop. -/

lemma dictInsert_eq_append {α : Type} {m : List (Str × α)} {k : Str}
    (v : α) (h : dictLookup m k = none) :
    dictInsert m k v = m ++ [(k, v)] := by
  induction m with
  | nil => rfl
  | cons p rest ih =>
    simp only [dictLookup] at h
    by_cases hp : p.1 = k
    · rw [if_pos hp] at h; cases h
    · rw [if_neg hp] at h
      simp only [dictInsert]
      rw [if_neg hp, ih h]
      rfl

lemma dictLookup_append_left_none {α : Type} {m1 : List (Str × α)}
    (m2 : List (Str × α)) {k : Str} (h : dictLookup m1 k = none) :
    dictLookup (m1 ++ m2) k = dictLookup m2 k := by
  induction m1 with
  | nil => rfl
  | cons p rest ih =>
    simp only [dictLookup] at h
    by_cases hp : p.1 = k
    · rw [if_pos hp] at h; cases h
    · rw [if_neg hp] at h
      simp only [List.cons_append, dictLookup]
      rw [if_neg hp]
      exact ih h

lemma lookup_isSome_iff_mem_keys {α : Type} (m : List (Str × α)) (k : Str) :
    (dictLookup m k).isSome = true ↔ k ∈ dictKeys m := by
  induction m with
  | nil => simp [dictLookup, dictKeys]
  | cons p rest ih =>
    by_cases hp : p.1 = k
    · constructor
      · intro _
        exact List.mem_cons.mpr (Or.inl hp.symm)
      · intro _
        rw [show dictLookup (p :: rest) k = some p.2 by
          simp only [dictLookup]; rw [if_pos hp]]
        rfl
    · simp only [dictLookup, dictKeys, List.map_cons, List.mem_cons]
      rw [if_neg hp]
      rw [show dictKeys rest = rest.map Prod.fst from rfl] at ih
      rw [ih]
      constructor
      · exact fun h => Or.inr h
      · rintro (h | h)
        · exact absurd h.symm hp
        · exact h

/-- The shape of a successful per-ticker processing step. -/
lemma process_ticker_data_ok_shape {fs : Str → Option (List Str)}
    {dic : List (Str × Str)} {cl : Option (List Str)} {t : Str}
    {ls : List Str} {exch : Str}
    (hft : fs t = some ls) (hexch : dictLookup dic t = some exch) :
    process_ticker_data fs dic cl t = Except.ok
      { exchange := pyLower exch
        data := (ls.map pyStrip).map (projectLine cl) } := by
  simp [process_ticker_data, read_dat, hft, hexch]

/-- With no column filter, a readable file and a mapped exchange, the
    per-ticker step succeeds and every produced record carries all six
    schema columns. -/
lemma process_ticker_data_ok_none {fs : Str → Option (List Str)}
    {dic : List (Str × Str)} {t : Str}
    (hf : (fs t).isSome = true) (hd : (dictLookup dic t).isSome = true) :
    ∃ ds, process_ticker_data fs dic none t = Except.ok ds ∧
      ∀ rec ∈ ds.data, dictKeys rec = COLUMNS := by
  rcases Option.isSome_iff_exists.mp hf with ⟨ls, hls⟩
  rcases Option.isSome_iff_exists.mp hd with ⟨exch, hexch⟩
  refine ⟨_, process_ticker_data_ok_shape hls hexch, ?_⟩
  intro rec hrec
  rcases List.mem_map.mp hrec with ⟨line, _, hline⟩
  rw [← hline]
  exact keys_line_to_dict line

/-- The processing loop with no column filter: all files readable and all
    tickers mapped gives a document whose keys extend the accumulator's
    keys by the processed tickers, every record holding all columns. -/
lemma processAll_ok_none (fs : Str → Option (List Str))
    (dic : List (Str × Str)) :
    ∀ (ts : List Str) (out : List (Str × TickerDataset)),
      (∀ t ∈ ts, (fs t).isSome = true) →
      (∀ t ∈ ts, (dictLookup dic t).isSome = true) →
      ts.Nodup →
      (∀ t ∈ ts, dictLookup out t = none) →
      (∀ p ∈ out, ∀ rec ∈ (Prod.snd p).data, dictKeys rec = COLUMNS) →
      ∃ out2, processAll fs dic none ts out = Except.ok out2 ∧
        dictKeys out2 = dictKeys out ++ ts ∧
        (∀ p ∈ out2, ∀ rec ∈ (Prod.snd p).data, dictKeys rec = COLUMNS) := by
  intro ts
  induction ts with
  | nil =>
    intro out _ _ _ _ hrec
    exact ⟨out, rfl, (List.append_nil _).symm, hrec⟩
  | cons t rest ih =>
    intro out hfs hdic hnd hnone hrec
    rcases process_ticker_data_ok_none (hfs t (List.mem_cons_self t rest))
      (hdic t (List.mem_cons_self t rest)) with ⟨ds, hds, hdsrec⟩
    have hlt : dictLookup out t = none := hnone t (List.mem_cons_self t rest)
    have hins : dictInsert out t ds = out ++ [(t, ds)] :=
      dictInsert_eq_append ds hlt
    have hstep : processAll fs dic none (t :: rest) out =
        processAll fs dic none rest (dictInsert out t ds) := by
      simp [processAll, hds]
    rcases ih (out ++ [(t, ds)])
      (fun t2 h2 => hfs t2 (List.mem_cons_of_mem _ h2))
      (fun t2 h2 => hdic t2 (List.mem_cons_of_mem _ h2))
      (List.Nodup.of_cons hnd)
      (fun t2 h2 => by
        rw [dictLookup_append_left_none _ (hnone t2 (List.mem_cons_of_mem _ h2))]
        have hne : t ≠ t2 := fun h => (List.nodup_cons.mp hnd).1 (h ▸ h2)
        simp [dictLookup, hne])
      (by
        intro p hp
        rcases List.mem_append.mp hp with h | h
        · exact hrec p h
        · have hp2 : p = (t, ds) := List.mem_singleton.mp h
          exact fun rec hr => hdsrec rec (by rw [hp2] at hr; exact hr))
      with ⟨out2, h1, h2, h3⟩
    refine ⟨out2, ?_, ?_, h3⟩
    · rw [hstep, hins]; exact h1
    · rw [h2]
      simp [dictKeys]

/-- C8.  With no ticker and no column filter and every mapped ticker
    having a readable data file, create_data_dict succeeds with exactly
    one entry per key of the map, and every record of every entry carries
    all six schema columns. -/
theorem create_data_dict_default_all_tickers
    (fs : Str → Option (List Str)) (dic : List (Str × Str))
    (hnd : (dictKeys dic).Nodup)
    (hfs : ∀ t ∈ dictKeys dic, (fs t).isSome = true) :
    ∃ out, create_data_dict fs dic none none = Except.ok out ∧
      dictKeys out = dictKeys dic ∧
      ∀ p ∈ out, ∀ rec ∈ (Prod.snd p).data, dictKeys rec = COLUMNS := by
  have h0 : create_data_dict fs dic none none =
      processAll fs dic none (dictKeys dic) [] := rfl
  rcases processAll_ok_none fs dic (dictKeys dic) [] hfs
    (fun t ht => (lookup_isSome_iff_mem_keys dic t).mpr ht) hnd
    (fun t _ => rfl) (fun p hp => absurd hp (List.not_mem_nil p))
    with ⟨out2, h1, h2, h3⟩
  exact ⟨out2, h0 ▸ h1, by simpa using h2, h3⟩

/-- Witness for C8 on the aapl map with a readable one-line data file. -/
theorem create_data_dict_default_all_tickers_witness :
    (dictKeys aaplDic).Nodup ∧
    ∃ out, create_data_dict helloFs aaplDic none none = Except.ok out ∧
      dictKeys out = dictKeys aaplDic ∧
      ∀ p ∈ out, ∀ rec ∈ (Prod.snd p).data, dictKeys rec = COLUMNS :=
  ⟨by decide,
    create_data_dict_default_all_tickers helloFs aaplDic (by decide)
      (by decide)⟩

/-- The processing loop aborts at the first target ticker whose file is
    missing, with exactly the IO error of its read. -/
lemma processAll_first_missing (fs : Str → Option (List Str))
    (dic : List (Str × Str)) (cl2 : Option (List Str)) :
    ∀ (ts : List Str) (out : List (Str × TickerDataset)),
      (∀ t ∈ ts, (dictLookup dic t).isSome = true) →
      (∃ t ∈ ts, fs t = none) →
      ∃ t2, t2 ∈ ts ∧ fs t2 = none ∧
        processAll fs dic cl2 ts out = Except.error (Err.ioError t2) := by
  intro ts
  induction ts with
  | nil =>
    intro out _ hmiss
    rcases hmiss with ⟨t, ht, _⟩
    cases ht
  | cons t rest ih =>
    intro out hdic hmiss
    cases hft : fs t with
    | none =>
      refine ⟨t, List.mem_cons_self t rest, hft, ?_⟩
      simp [processAll, process_ticker_data, read_dat, hft]
    | some ls =>
      rcases Option.isSome_iff_exists.mp
        (hdic t (List.mem_cons_self t rest)) with ⟨exch, hexch⟩
      have hstep : processAll fs dic cl2 (t :: rest) out =
          processAll fs dic cl2 rest (dictInsert out t
            { exchange := pyLower exch
              data := (ls.map pyStrip).map (projectLine cl2) }) := by
        simp [processAll, process_ticker_data_ok_shape hft hexch]
      rcases hmiss with ⟨t2, ht2, hf2⟩
      have ht2r : t2 ∈ rest := by
        rcases List.mem_cons.mp ht2 with h | h
        · rw [h] at hf2; rw [hft] at hf2; cases hf2
        · exact h
      rcases ih _ (fun t3 h3 => hdic t3 (List.mem_cons_of_mem _ h3))
        ⟨t2, ht2r, hf2⟩ with ⟨t3, h3mem, h3f, h3eq⟩
      exact ⟨t3, List.mem_cons_of_mem _ h3mem, h3f, by rw [hstep]; exact h3eq⟩

/-- C9.  When validation passes and some requested ticker has no data
    file, the read of the first such ticker fails with its IO error and
    create_data_dict propagates exactly that error: the ticker is not
    skipped and no output document is returned. -/
theorem create_data_dict_missing_file_propagates
    (fs : Str → Option (List Str)) (dic : List (Str × Str))
    (l : List Str) (cl : Option (List Str))
    (hl : l ≠ [])
    (hval : ∀ t ∈ l, dictMem dic t = true)
    (hcols : ∀ m, cl = some m → ∀ c ∈ m, c ∈ COLUMNS)
    (hmiss : ∃ t ∈ l, fs t = none) :
    ∃ t2, t2 ∈ l ∧ fs t2 = none ∧
      read_dat fs t2 = Except.error (Err.ioError t2) ∧
      create_data_dict fs dic (some l) cl = Except.error (Err.ioError t2) := by
  have hgate : create_data_dict fs dic (some l) cl =
      processAll fs dic (collapseCols cl) l [] :=
    create_data_dict_gates_ok
      (fun m hm _ => checkCols_ok_of_valid (hcols m hm)) hl
      (checkTickers_ok_of_valid hval)
  rcases processAll_first_missing fs dic (collapseCols cl) l []
    (fun t ht => hval t ht) hmiss with ⟨t2, hmem, hf2, heq⟩
  exact ⟨t2, hmem, hf2, by simp [read_dat, hf2], by rw [hgate]; exact heq⟩

/-- Witness for C9: a file system with no files at all makes the call for
    aapl fail with the IO error of the aapl read. -/
theorem create_data_dict_missing_file_propagates_witness :
    (["aapl".toList] ≠ ([] : List Str)) ∧
    ∃ t2, t2 ∈ ["aapl".toList] ∧
      (fun _ : Str => (none : Option (List Str))) t2 = none ∧
      read_dat (fun _ => none) t2 = Except.error (Err.ioError t2) ∧
      create_data_dict (fun _ => none) aaplDic (some ["aapl".toList]) none =
        Except.error (Err.ioError t2) :=
  ⟨by decide,
    create_data_dict_missing_file_propagates (fun _ => none) aaplDic
      ["aapl".toList] none (by decide) (by decide)
      (fun m hm => nomatch hm) ⟨"aapl".toList, by decide, rfl⟩⟩

end Exercise
